import Mathlib

/-!
Shallow embedding of `monarch.py`, a single-file database migration manager.

The embedding models the migration-resolution-and-application engine:

* `solveAux` / `solve_dependencies` embed `Monarch._solve_dependencies`
  (recursive dependency resolution with the `resolved` / `seen` accumulators);
  `deps : String → List String` abstracts `parse_header(m).get('depends_on', [])`
  for each migration file, and the `Nat` fuel argument stands for Python's
  call stack (Python raises `RecursionError` on unbounded recursion; the
  embedding returns `PyError.recursionLimit`).
* `run_migrations` embeds `Monarch.run_migrations`, with transactions modelled
  explicitly: the body of a `with engine.begin()` block accumulates tentative
  effects that are committed on normal exit and discarded when an exception
  escapes the block.  Script and insert outcomes are supplied by the oracles
  `execOk` / `insertOk` (what `conn.execute` would do on the real stores).
* `register_migrations`, `get_sql_script`, `prompt_for_migrations`,
  `get_migrations_to_run`, `process_migration`, `process_all_migrations`
  embed the synonymous methods.
-/

namespace Monarch

/-- A resolved-migration entry, modelling the Python dict
`{'name': migration, **commands}` appended to the `resolved` accumulator in
`_solve_dependencies`.  The only command the engine reads is `depends_on`,
kept here as `dependsOn`. -/
structure Mig where
  name : String
  dependsOn : List String
deriving DecidableEq, Repr

/-- The name projection `{m['name'] for m in resolved}` used throughout. -/
def names (R : List Mig) : List String := R.map Mig.name

/-- The exceptions relevant to the modelled code paths:
`RecursionError` (stack exhaustion, the fuel of the embedding),
`ValueError` raised on a circular dependency (carrying its message text), and
the `TypeError` raised by `dict.fromkeys` on unhashable keys. -/
inductive PyError where
  | recursionLimit
  | circular (msg : String)
  | typeError
deriving DecidableEq, Repr

/-- The exact message of the `ValueError` raised in `_solve_dependencies`.
In the source the message is built from two adjacent string literals
`f'Circular dependency detected ' '"{migration, dependency}"'`; only the
first carries the `f` prefix, so the braces of the second are literal text
and neither migration name is interpolated. -/
def circularMsg : String :=
  "Circular dependency detected \"\x7bmigration, dependency\x7d\""

/-- One step of `_solve_dependencies`.  `Sum.inl m` is a call on migration `m`
(append `m` to `seen`, walk its dependency list, then append the entry to
`resolved`); `Sum.inr ds` is the `for dependency in commands.get('depends_on', [])`
loop over the remaining dependencies.  `seen` holds the names of the dicts in
the Python `seen` list. -/
def solveAux (deps : String → List String) :
    Nat → String ⊕ List String → List Mig → List String →
    Except PyError (List Mig × List String)
  | 0, _, _, _ => .error .recursionLimit
  | f+1, .inl m, resolved, seen =>
    match solveAux deps f (.inr (deps m)) resolved (seen ++ [m]) with
    | .error e => .error e
    | .ok (r, s) => .ok (r ++ [⟨m, deps m⟩], s)
  | _+1, .inr [], resolved, seen => .ok (resolved, seen)
  | f+1, .inr (d :: ds), resolved, seen =>
    if d ∈ names resolved then solveAux deps f (.inr ds) resolved seen
    else if d ∈ seen then .error (.circular circularMsg)
    else
      match solveAux deps f (.inl d) resolved seen with
      | .error e => .error e
      | .ok (r, s) => solveAux deps f (.inr ds) r s

/-- The top-level call `self._solve_dependencies(migration, migration_candidates, seen=[])`
made by `get_migrations_to_run`: both accumulators start empty. -/
def solve_dependencies (deps : String → List String) (fuel : Nat)
    (migration : String) : Except PyError (List Mig × List String) :=
  solveAux deps fuel (.inl migration) [] []

/-- Transitive (reflexive) dependency reachability in the header graph. -/
inductive Reaches (deps : String → List String) : String → String → Prop
  | refl (m : String) : Reaches deps m m
  | step {m d x : String} : d ∈ deps m → Reaches deps d x → Reaches deps m x

/-- Topological soundness of a resolved list: it can be built left to right so
that every dependency recorded in an entry already occurs among the names of
the earlier entries. -/
inductive DepsBefore : List Mig → Prop
  | nil : DepsBefore []
  | snoc {R : List Mig} {e : Mig} : DepsBefore R →
      (∀ d ∈ e.dependsOn, d ∈ names R) → DepsBefore (R ++ [e])

/-- The mode flags stored on the `Monarch` object by `__init__`. -/
structure Config where
  apply_migrations : Bool
  register : Bool
  dry_run : Bool
  accept_all : Bool
  ignore_applied : Bool
deriving DecidableEq, Repr

/-- The two stores.  `target` is the committed effect log of the target
database (one entry per committed `conn.execute(script)` call); `internal` is
the rows of the `migration` table of the internal database, in insertion
order (the result column of `SELECT name from migration`). -/
structure Stores where
  target : List String
  internal : List String
deriving DecidableEq, Repr

/-- How a `run_migrations` call ended: returned after the dry-run display,
returned after a declined prompt, returned normally, or raised out of the
`with self.target_db.begin()` block (a script or a registration failure,
carrying the migration name involved). -/
inductive RunStatus where
  | dryRun
  | aborted
  | completed
  | execFailed (name : String)
  | registerFailed (name : String)
deriving DecidableEq, Repr

/-- The observable outcome of one `run_migrations` call: the two stores after
the call, the scripts passed to `conn.execute` on the target connection, the
names passed to `INSERT INTO migration` on the internal connection, whether
the confirmation prompt was shown, the name/script pairs printed by the
dry-run branch, and how the call ended. -/
structure RunOutcome where
  target : List String
  internal : List String
  execCalls : List String
  regCalls : List String
  promptShown : Bool
  displayed : List (String × String)
  status : RunStatus
deriving DecidableEq, Repr

/-- ASCII whitespace recognised by Python's `str.strip()` (the claims only
involve ASCII responses, so the Unicode cases are not modelled). -/
def pyIsSpace (c : Char) : Bool :=
  (c == ' ') || (c == '\t') || (c == '\n') || (c == '\x0d') ||
    (c == '\x0b') || (c == '\x0c')

/-- Python `str.strip()`. -/
def pyStrip (s : String) : String :=
  ⟨((s.toList.dropWhile pyIsSpace).reverse.dropWhile pyIsSpace).reverse⟩

/-- Python `str.lower()`, character-wise.  `Char.toLower` lowercases exactly
the ASCII uppercase letters; for the single comparison against `'y'` made by
the code this agrees with Python (the only characters Python lowercases to
`'y'` are `'y'` and `'Y'`). -/
def pyLower (s : String) : String := ⟨s.toList.map Char.toLower⟩

/-- The decision of `prompt_for_migrations`:
`response = input(...).strip().lower()` followed by
`return (not response) or (response[0] == 'y')`. -/
def prompt_consents (response : String) : Bool :=
  match (pyLower (pyStrip response)).toList with
  | [] => true
  | c :: _ => c == 'y'

/-- Python `file.readlines()` on text `s`: split after every newline, each
line keeping its terminator; a final fragment without a terminator is kept,
an empty one is not.  `acc` holds the current line, reversed. -/
def readlinesAux : List Char → List Char → List (List Char)
  | [], acc => if acc.isEmpty then [] else [acc.reverse]
  | c :: cs, acc =>
    if c = '\n' then (acc.reverse ++ ['\n']) :: readlinesAux cs []
    else readlinesAux cs (c :: acc)

/-- Model of `f.readlines()` for a file whose full text is `s`. -/
def pyReadlines (s : String) : List String :=
  (readlinesAux s.toList []).map (fun l => ⟨l⟩)

/-- Model of `get_sql_script`: `" ".join(f.readlines())`, where `files` maps a
migration name to the raw text of its file. -/
def get_sql_script (files : String → String) (migration : String) : String :=
  String.intercalate (" ") (pyReadlines (files migration))

/-- The loop of `register_migrations` inside `with self.internal_db.begin()`:
insert each name in order; `insertOk` tells whether `conn.execute` of the
`INSERT` succeeds.  Returns the tentative rows, the attempted inserts and the
name whose insert raised, if any. -/
def regLoop (insertOk : String → Bool) :
    List String → List String → List String →
    List String × List String × Option String
  | [], tentative, calls => (tentative, calls, none)
  | n :: ns, tentative, calls =>
    if insertOk n then regLoop insertOk ns (tentative ++ [n]) (calls ++ [n])
    else (tentative, calls ++ [n], some n)

/-- Model of `register_migrations`: one atomic unit against the internal store.  On a
raise the internal transaction rolls back (rows unchanged) and the exception
propagates (the returned `Option String` is the failing name). -/
def register_migrations (insertOk : String → Bool) (internal : List String)
    (migrations : List String) : List String × List String × Option String :=
  match regLoop insertOk migrations internal [] with
  | (t, calls, none) => (t, calls, none)
  | (_, calls, some n) => (internal, calls, some n)

/-- The `for migration in migrations` loop inside `with self.target_db.begin()`:
execute each script when `apply_migrations` is set, and append the name to
`applied_migrations` either way.  Returns the tentative target effects, the
attempted `conn.execute` calls, the `applied_migrations` list, and the name
whose script raised, if any. -/
def execLoop (apply : Bool) (execOk : String → Bool) :
    List (String × String) → List String → List String → List String →
    List String × List String × List String × Option String
  | [], tentative, calls, applied => (tentative, calls, applied, none)
  | (name, script) :: rest, tentative, calls, applied =>
    if apply then
      if execOk script then
        execLoop apply execOk rest (tentative ++ [script])
          (calls ++ [script]) (applied ++ [name])
      else (tentative, calls ++ [script], applied, some name)
    else execLoop apply execOk rest tentative calls (applied ++ [name])

/-- Model of `run_migrations`.  Scripts are loaded first; the dry-run branch prints
them and returns; otherwise the prompt gates the run unless `accept_all`;
then the target transaction runs the plan and, still inside that `with`
block, `register_migrations` runs as its own internal-store transaction.  A
script failure rolls the target transaction back and registration never
happens; a registration failure rolls back the internal transaction and the
escaping exception rolls back the enclosing target transaction as well.
Only the dry-run script display is modelled in `displayed`. -/
def run_migrations (cfg : Config) (files : String → String)
    (execOk insertOk : String → Bool) (response : String) (st : Stores)
    (migrations : List Mig) : RunOutcome :=
  if cfg.dry_run then
    { target := st.target, internal := st.internal, execCalls := [],
      regCalls := [], promptShown := false,
      displayed := migrations.map
        (fun m => (m.name, get_sql_script files m.name)),
      status := .dryRun }
  else if !cfg.accept_all && !prompt_consents response then
    { target := st.target, internal := st.internal, execCalls := [],
      regCalls := [], promptShown := true, displayed := [],
      status := .aborted }
  else
    match execLoop cfg.apply_migrations execOk
      (migrations.map (fun m => (m.name, get_sql_script files m.name)))
      [] [] [] with
    | (tentative, calls, applied, none) =>
      if cfg.register then
        match register_migrations insertOk st.internal applied with
        | (newInternal, regCalls, none) =>
          { target := st.target ++ tentative, internal := newInternal,
            execCalls := calls, regCalls := regCalls,
            promptShown := !cfg.accept_all, displayed := [],
            status := .completed }
        | (_, regCalls, some n) =>
          { target := st.target, internal := st.internal,
            execCalls := calls, regCalls := regCalls,
            promptShown := !cfg.accept_all, displayed := [],
            status := .registerFailed n }
      else
        { target := st.target ++ tentative, internal := st.internal,
          execCalls := calls, regCalls := [],
          promptShown := !cfg.accept_all, displayed := [],
          status := .completed }
    | (_, calls, _, some n) =>
      { target := st.target, internal := st.internal, execCalls := calls,
        regCalls := [], promptShown := !cfg.accept_all, displayed := [],
        status := .execFailed n }

/-- Model of `get_applied_migrations`: `SELECT name from migration` on the internal
store. -/
def get_applied_migrations (st : Stores) : List String := st.internal

/-- Model of `get_migrations_to_run`: resolve, then drop entries whose name is already
applied (unless `ignore_applied`). -/
def get_migrations_to_run (deps : String → List String) (fuel : Nat)
    (st : Stores) (ignore_applied : Bool) (migration : String) :
    Except PyError (List Mig) :=
  match solve_dependencies deps fuel migration with
  | .error e => .error e
  | .ok (cands, _) =>
    let applied := if ignore_applied then [] else get_applied_migrations st
    .ok (cands.filter (fun m => decide (m.name ∉ applied)))

/-- Model of `process_migration`: resolve one migration, then run the plan.  An error
during resolution propagates before `run_migrations` is called, so an
`Except.error` result carries no run: nothing was executed, registered,
displayed or prompted. -/
def process_migration (deps : String → List String) (fuel : Nat)
    (files : String → String) (execOk insertOk : String → Bool)
    (response : String) (cfg : Config) (st : Stores) (migration : String) :
    Except PyError RunOutcome :=
  match get_migrations_to_run deps fuel st cfg.ignore_applied migration with
  | .error e => .error e
  | .ok ms => .ok (run_migrations cfg files execOk insertOk response st ms)

/-- The `candidates` accumulation loop of `process_all_migrations`.
`available` is an enumeration of `get_available_migrations()` (a Python set,
whose iteration order is unspecified; the claims do not depend on it). -/
def gather_candidates (deps : String → List String) (fuel : Nat) (st : Stores)
    (ignore_applied : Bool) : List String → Except PyError (List Mig)
  | [] => .ok []
  | a :: rest =>
    match get_migrations_to_run deps fuel st ignore_applied a with
    | .error e => .error e
    | .ok ms =>
      match gather_candidates deps fuel st ignore_applied rest with
      | .error e => .error e
      | .ok acc => .ok (ms ++ acc)

/-- Model of `list(dict.fromkeys(candidates))`: `dict.fromkeys` hashes every key, and
the candidates are Python dicts, which are unhashable, so the first element
raises `TypeError`; only the empty list survives (an empty dict is built). -/
def dict_fromkeys_unhashable (l : List Mig) : Except PyError (List Mig) :=
  match l with
  | [] => .ok []
  | _ :: _ => .error .typeError

/-- Model of `process_all_migrations`: gather the candidates of every available
migration, deduplicate with `dict.fromkeys`, and run the result. -/
def process_all_migrations (deps : String → List String) (fuel : Nat)
    (files : String → String) (execOk insertOk : String → Bool)
    (response : String) (cfg : Config) (st : Stores)
    (available : List String) : Except PyError RunOutcome :=
  match gather_candidates deps fuel st cfg.ignore_applied available with
  | .error e => .error e
  | .ok candidates =>
    match dict_fromkeys_unhashable candidates with
    | .error e => .error e
    | .ok ms => .ok (run_migrations cfg files execOk insertOk response st ms)

/-- The columns created by `init_meta` for the `migration` table, paired with
whether the column carries a uniqueness guarantee (`id` is the primary key;
`name` and `applied_on` have no unique constraint). -/
def migration_table_columns : List (String × Bool) :=
  [("id", true), ("name", false), ("applied_on", false)]

/-! ## Invariants of `_solve_dependencies` -/

/-- The migrations a `solveAux` step is responsible for: the single migration
of a call, or the remaining dependency list of the loop. -/
def rootsOf : String ⊕ List String → List String
  | .inl m => [m]
  | .inr ds => ds

/-- Call-site precondition: `_solve_dependencies` is only entered on a
migration that is neither resolved nor seen (the top-level call has both
accumulators empty; recursive calls are guarded by the two membership
checks). -/
def preOf : String ⊕ List String → List Mig → List String → Prop
  | .inl m, R, S => m ∉ names R ∧ m ∉ S
  | .inr _, _, _ => True

/-- What a successful `solveAux` step guarantees, relating the input
accumulators `R₀`, `S₀` to the output accumulators `R`, `S`. -/
structure OkInv (deps : String → List String) (k : String ⊕ List String)
    (R₀ : List Mig) (S₀ : List String) (R : List Mig) (S : List String) :
    Prop where
  prefR : R₀ <+: R
  prefS : S₀ <+: S
  nodupR : (names R).Nodup
  sortedR : DepsBefore R
  rootsMem : ∀ d ∈ rootsOf k, d ∈ names R
  newSeen : ∀ x ∈ names R, x ∈ names R₀ ∨ (x ∈ S ∧ x ∉ S₀)
  reach : ∀ x ∈ names R, x ∈ names R₀ ∨ ∃ d ∈ rootsOf k, Reaches deps d x
  seenRes : ∀ x ∈ S, x ∈ S₀ ∨ x ∈ names R
  entries : ∀ e ∈ R, e ∈ R₀ ∨ e.dependsOn = deps e.name

@[simp] theorem names_nil : names [] = [] := rfl

@[simp] theorem names_append (R₁ R₂ : List Mig) :
    names (R₁ ++ R₂) = names R₁ ++ names R₂ := by
  simp [names]

@[simp] theorem names_singleton (e : Mig) : names [e] = [e.name] := rfl

theorem mem_names_of_pref {R₁ R₂ : List Mig} (h : R₁ <+: R₂) {x : String}
    (hx : x ∈ names R₁) : x ∈ names R₂ :=
  (List.IsPrefix.map Mig.name h).subset hx

theorem depsBefore_closed {R : List Mig} (h : DepsBefore R) :
    ∀ e ∈ R, ∀ d ∈ e.dependsOn, d ∈ names R := by
  induction h with
  | nil => intro e he; simp at he
  | snoc hR hdeps ih =>
    intro e he d hd
    rw [List.mem_append] at he
    rcases he with he | he
    · have := ih e he d hd
      rw [names_append]
      exact List.mem_append_left _ this
    · rw [List.mem_singleton] at he
      subst he
      rw [names_append]
      exact List.mem_append_left _ (hdeps d hd)

/-- The main invariant of `_solve_dependencies`: a successful call extends
the accumulators, keeps the resolved names duplicate-free and topologically
sorted, resolves everything it is responsible for, only adds names it also
marked as seen, only adds names reachable from its roots, leaves no seen
name unresolved beyond the input, and records the header dependencies of
every entry it appends. -/
theorem solveAux_ok (deps : String → List String) :
    ∀ f k R₀ S₀ R S, (names R₀).Nodup → DepsBefore R₀ → preOf k R₀ S₀ →
      solveAux deps f k R₀ S₀ = .ok (R, S) → OkInv deps k R₀ S₀ R S := by
  intro f
  induction f with
  | zero =>
    intro k R₀ S₀ R S _ _ _ h
    simp [solveAux] at h
  | succ f ih =>
    intro k R₀ S₀ R S hnd hsort hpre h
    cases k with
    | inl m =>
      obtain ⟨hmR, hmS⟩ := hpre
      simp only [solveAux] at h
      cases hinner : solveAux deps f (.inr (deps m)) R₀ (S₀ ++ [m]) with
      | error e => rw [hinner] at h; simp at h
      | ok p =>
        obtain ⟨R₁, S₁⟩ := p
        rw [hinner] at h
        simp only [Except.ok.injEq, Prod.mk.injEq] at h
        obtain ⟨hR, hS⟩ := h
        subst hR; subst hS
        have ihI := ih (.inr (deps m)) R₀ (S₀ ++ [m]) R₁ S₁ hnd hsort
          trivial hinner
        have hmR₁ : m ∉ names R₁ := by
          intro hc
          rcases ihI.newSeen m hc with h1 | ⟨_, h3⟩
          · exact hmR h1
          · exact h3 (List.mem_append_right _ (List.mem_singleton_self m))
        have hmS₁ : m ∈ S₁ :=
          ihI.prefS.mem (List.mem_append_right _ (List.mem_singleton_self m))
        refine ⟨?_, ?_, ?_, ?_, ?_, ?_, ?_, ?_, ?_⟩
        · exact ihI.prefR.trans (List.prefix_append R₁ _)
        · exact (List.prefix_append S₀ [m]).trans ihI.prefS
        · rw [names_append, names_singleton]
          simp [List.nodup_append, ihI.nodupR, hmR₁]
        · exact DepsBefore.snoc ihI.sortedR (by
            intro d hd
            exact ihI.rootsMem d hd)
        · intro d hd
          simp only [rootsOf, List.mem_singleton] at hd
          subst hd
          rw [names_append, names_singleton]
          exact List.mem_append_right _ (List.mem_singleton_self _)
        · intro x hx
          rw [names_append, names_singleton, List.mem_append,
            List.mem_singleton] at hx
          rcases hx with hx | hx
          · rcases ihI.newSeen x hx with h1 | ⟨h2, h3⟩
            · exact Or.inl h1
            · refine Or.inr ⟨h2, fun hc => h3 (List.mem_append_left _ hc)⟩
          · subst hx
            exact Or.inr ⟨hmS₁, hmS⟩
        · intro x hx
          rw [names_append, names_singleton, List.mem_append,
            List.mem_singleton] at hx
          rcases hx with hx | hx
          · rcases ihI.reach x hx with h1 | ⟨d, hd, hr⟩
            · exact Or.inl h1
            · exact Or.inr ⟨m, List.mem_singleton_self m, Reaches.step hd hr⟩
          · subst hx
            exact Or.inr ⟨x, List.mem_singleton_self x, Reaches.refl x⟩
        · intro x hx
          rcases ihI.seenRes x hx with h1 | h2
          · rw [List.mem_append, List.mem_singleton] at h1
            rcases h1 with h1 | h1
            · exact Or.inl h1
            · subst h1
              refine Or.inr ?_
              rw [names_append, names_singleton]
              exact List.mem_append_right _ (List.mem_singleton_self _)
          · refine Or.inr ?_
            rw [names_append]
            exact List.mem_append_left _ h2
        · intro e he
          rw [List.mem_append, List.mem_singleton] at he
          rcases he with he | he
          · rcases ihI.entries e he with h1 | h1
            · exact Or.inl h1
            · exact Or.inr h1
          · subst he
            exact Or.inr rfl
    | inr ds =>
      cases ds with
      | nil =>
        simp only [solveAux, Except.ok.injEq, Prod.mk.injEq] at h
        obtain ⟨hR, hS⟩ := h
        subst hR; subst hS
        refine ⟨List.prefix_rfl, List.prefix_rfl, hnd, hsort, ?_, ?_, ?_,
          ?_, ?_⟩
        · intro d hd; simp [rootsOf] at hd
        · intro x hx; exact Or.inl hx
        · intro x hx; exact Or.inl hx
        · intro x hx; exact Or.inl hx
        · intro e he; exact Or.inl he
      | cons d ds =>
        simp only [solveAux] at h
        by_cases hd1 : d ∈ names R₀
        · rw [if_pos hd1] at h
          have ihI := ih (.inr ds) R₀ S₀ R S hnd hsort trivial h
          refine ⟨ihI.prefR, ihI.prefS, ihI.nodupR, ihI.sortedR, ?_, ihI.newSeen,
            ?_, ihI.seenRes, ihI.entries⟩
          · intro x hx
            simp only [rootsOf] at hx
            rw [List.mem_cons] at hx
            rcases hx with hx | hx
            · subst hx
              exact mem_names_of_pref ihI.prefR hd1
            · exact ihI.rootsMem x hx
          · intro x hx
            rcases ihI.reach x hx with h1 | ⟨d2, hd2, hr⟩
            · exact Or.inl h1
            · exact Or.inr ⟨d2, List.mem_cons_of_mem d hd2, hr⟩
        · rw [if_neg hd1] at h
          by_cases hd2 : d ∈ S₀
          · rw [if_pos hd2] at h; simp at h
          · rw [if_neg hd2] at h
            cases hone : solveAux deps f (.inl d) R₀ S₀ with
            | error e => rw [hone] at h; simp at h
            | ok p =>
              obtain ⟨R₁, S₁⟩ := p
              rw [hone] at h
              have ih₁ := ih (.inl d) R₀ S₀ R₁ S₁ hnd hsort ⟨hd1, hd2⟩ hone
              have ih₂ := ih (.inr ds) R₁ S₁ R S ih₁.nodupR ih₁.sortedR
                trivial h
              refine ⟨ih₁.prefR.trans ih₂.prefR, ih₁.prefS.trans ih₂.prefS,
                ih₂.nodupR, ih₂.sortedR, ?_, ?_, ?_, ?_, ?_⟩
              · intro x hx
                simp only [rootsOf] at hx
                rw [List.mem_cons] at hx
                rcases hx with hx | hx
                · subst hx
                  exact mem_names_of_pref ih₂.prefR
                    (ih₁.rootsMem x (List.mem_singleton_self x))
                · exact ih₂.rootsMem x hx
              · intro x hx
                rcases ih₂.newSeen x hx with h1 | ⟨h2, h3⟩
                · rcases ih₁.newSeen x h1 with g1 | ⟨g2, g3⟩
                  · exact Or.inl g1
                  · exact Or.inr ⟨ih₂.prefS.mem g2, g3⟩
                · exact Or.inr ⟨h2, fun hc => h3 (ih₁.prefS.subset hc)⟩
              · intro x hx
                rcases ih₂.reach x hx with h1 | ⟨d2, hd2, hr⟩
                · rcases ih₁.reach x h1 with g1 | ⟨d2, hd2, hr⟩
                  · exact Or.inl g1
                  · simp only [rootsOf] at hd2
                    rw [List.mem_singleton] at hd2
                    subst hd2
                    exact Or.inr ⟨d2, List.mem_cons_self d2 ds, hr⟩
                · exact Or.inr ⟨d2, List.mem_cons_of_mem d hd2, hr⟩
              · intro x hx
                rcases ih₂.seenRes x hx with h1 | h2
                · rcases ih₁.seenRes x h1 with g1 | g2
                  · exact Or.inl g1
                  · exact Or.inr (mem_names_of_pref ih₂.prefR g2)
                · exact Or.inr h2
              · intro e he
                rcases ih₂.entries e he with h1 | h1
                · rcases ih₁.entries e h1 with g1 | g1
                  · exact Or.inl g1
                  · exact Or.inr g1
                · exact Or.inr h1

theorem solveAux_eq_inl (deps : String → List String) (f : Nat) (m : String)
    (R₀ : List Mig) (S₀ : List String) :
    solveAux deps (f+1) (.inl m) R₀ S₀ =
      (match solveAux deps f (.inr (deps m)) R₀ (S₀ ++ [m]) with
       | .error e => .error e
       | .ok (r, s) => .ok (r ++ [⟨m, deps m⟩], s)) := rfl

theorem solveAux_eq_nil (deps : String → List String) (f : Nat)
    (R₀ : List Mig) (S₀ : List String) :
    solveAux deps (f+1) (.inr []) R₀ S₀ = .ok (R₀, S₀) := rfl

theorem solveAux_eq_cons (deps : String → List String) (f : Nat) (d : String)
    (ds : List String) (R₀ : List Mig) (S₀ : List String) :
    solveAux deps (f+1) (.inr (d :: ds)) R₀ S₀ =
      (if d ∈ names R₀ then solveAux deps f (.inr ds) R₀ S₀
       else if d ∈ S₀ then .error (.circular circularMsg)
       else
         match solveAux deps f (.inl d) R₀ S₀ with
         | .error e => .error e
         | .ok (r, s) => solveAux deps f (.inr ds) r s) := rfl

/-- More fuel never changes a successful resolution (the fuel is only the
embedding's stand-in for Python's unbounded call stack). -/
theorem solveAux_mono (deps : String → List String) :
    ∀ f k R₀ S₀ out, solveAux deps f k R₀ S₀ = .ok out →
      solveAux deps (f+1) k R₀ S₀ = .ok out := by
  intro f
  induction f with
  | zero => intro k R₀ S₀ out h; simp [solveAux] at h
  | succ f ih =>
    intro k R₀ S₀ out h
    cases k with
    | inl m =>
      simp only [solveAux] at h ⊢
      cases hinner : solveAux deps f (.inr (deps m)) R₀ (S₀ ++ [m]) with
      | error e => rw [hinner] at h; simp at h
      | ok p =>
        obtain ⟨R₁, S₁⟩ := p
        rw [hinner] at h
        rw [ih _ _ _ _ hinner]
        exact h
    | inr ds =>
      cases ds with
      | nil => simpa [solveAux] using h
      | cons d ds =>
        rw [solveAux_eq_cons] at h ⊢
        by_cases hd1 : d ∈ names R₀
        · rw [if_pos hd1] at h ⊢
          exact ih _ _ _ _ h
        · rw [if_neg hd1] at h ⊢
          by_cases hd2 : d ∈ S₀
          · rw [if_pos hd2] at h; simp at h
          · rw [if_neg hd2] at h ⊢
            cases hone : solveAux deps f (.inl d) R₀ S₀ with
            | error e => rw [hone] at h; simp at h
            | ok p =>
              obtain ⟨R₁, S₁⟩ := p
              rw [hone] at h
              rw [ih _ _ _ _ hone]
              exact ih _ _ _ _ h

theorem solveAux_mono_le (deps : String → List String) {f f' : Nat}
    (hle : f ≤ f') : ∀ k R₀ S₀ out, solveAux deps f k R₀ S₀ = .ok out →
      solveAux deps f' k R₀ S₀ = .ok out := by
  induction hle with
  | refl => intro k R₀ S₀ out h; exact h
  | step _ ih =>
    intro k R₀ S₀ out h
    exact solveAux_mono deps _ _ _ _ _ (ih _ _ _ _ h)

/-- The dependency loop of `_solve_dependencies` succeeds for some fuel
when every listed dependency has rank below the bound `b`, every
seen-but-unresolved name has rank at least `b`, and recursive calls on
migrations of rank below `b` succeed. -/
theorem solveAux_success_list (deps : String → List String)
    (rank : String → Nat) (b : Nat)
    (hrec : ∀ d R S, rank d < b → (names R).Nodup → DepsBefore R →
      d ∉ names R → d ∉ S → (∀ x ∈ S, x ∉ names R → rank d ≤ rank x) →
      ∃ f R1 S1, solveAux deps f (.inl d) R S = .ok (R1, S1)) :
    ∀ ds R S, (∀ d ∈ ds, rank d < b) → (names R).Nodup → DepsBefore R →
      (∀ x ∈ S, x ∉ names R → b ≤ rank x) →
      ∃ f R1 S1, solveAux deps f (.inr ds) R S = .ok (R1, S1) := by
  intro ds
  induction ds with
  | nil =>
    intro R S _ _ _ _
    exact ⟨1, R, S, rfl⟩
  | cons d ds ih =>
    intro R S hb hnd hsort hseen
    by_cases hd1 : d ∈ names R
    · obtain ⟨f, R1, S1, hok⟩ :=
        ih R S (fun d' hd' => hb d' (List.mem_cons_of_mem d hd')) hnd hsort
          hseen
      refine ⟨f + 1, R1, S1, ?_⟩
      simp only [solveAux]
      rw [if_pos hd1]
      exact hok
    · have hd2 : d ∉ S := by
        intro hc
        have h1 := hseen d hc hd1
        have h2 := hb d (List.mem_cons_self d ds)
        omega
      obtain ⟨f₁, R₁, S₁, h₁⟩ :=
        hrec d R S (hb d (List.mem_cons_self d ds)) hnd hsort hd1 hd2
          (by
            intro x hx hnx
            have g1 := hb d (List.mem_cons_self d ds)
            have g2 := hseen x hx hnx
            omega)
      have inv₁ := solveAux_ok deps f₁ (.inl d) R S R₁ S₁ hnd hsort
        ⟨hd1, hd2⟩ h₁
      have hseen₁ : ∀ x ∈ S₁, x ∉ names R₁ → b ≤ rank x := by
        intro x hx hnx
        rcases inv₁.seenRes x hx with h | h
        · exact hseen x h (fun hc => hnx (mem_names_of_pref inv₁.prefR hc))
        · exact absurd h hnx
      obtain ⟨f₂, R2, S2, h₂⟩ :=
        ih R₁ S₁ (fun d' hd' => hb d' (List.mem_cons_of_mem d hd'))
          inv₁.nodupR inv₁.sortedR hseen₁
      refine ⟨max f₁ f₂ + 1, R2, S2, ?_⟩
      simp only [solveAux]
      rw [if_neg hd1, if_neg hd2]
      rw [solveAux_mono_le deps (le_max_left f₁ f₂) _ _ _ _ h₁]
      show solveAux deps (max f₁ f₂) (.inr ds) R₁ S₁ = .ok (R2, S2)
      exact solveAux_mono_le deps (le_max_right f₁ f₂) _ _ _ _ h₂

/-- The function `_solve_dependencies` succeeds for some fuel on any migration whose
dependency graph is ranked (acyclic), from any well-formed accumulator
state. -/
theorem solveAux_success_one (deps : String → List String)
    (rank : String → Nat) (hrank : ∀ v, ∀ d ∈ deps v, rank d < rank v) :
    ∀ n m R S, rank m ≤ n → (names R).Nodup → DepsBefore R →
      m ∉ names R → m ∉ S → (∀ x ∈ S, x ∉ names R → rank m ≤ rank x) →
      ∃ f R1 S1, solveAux deps f (.inl m) R S = .ok (R1, S1) := by
  intro n
  induction n using Nat.strong_induction_on with
  | _ n ih =>
    intro m R S hm hnd hsort hmR hmS hseen
    have hrec : ∀ d R' S', rank d < rank m → (names R').Nodup →
        DepsBefore R' → d ∉ names R' → d ∉ S' →
        (∀ x ∈ S', x ∉ names R' → rank d ≤ rank x) →
        ∃ f R1 S1, solveAux deps f (.inl d) R' S' = .ok (R1, S1) := by
      intro d R' S' hdm hnd' hsort' h1 h2 h3
      exact ih (rank d) (lt_of_lt_of_le hdm hm) d R' S' le_rfl hnd' hsort'
        h1 h2 h3
    have hseen' : ∀ x ∈ S ++ [m], x ∉ names R → rank m ≤ rank x := by
      intro x hx hnx
      rw [List.mem_append, List.mem_singleton] at hx
      rcases hx with hx | hx
      · exact hseen x hx hnx
      · subst hx; exact le_rfl
    obtain ⟨f, R1, S1, hok⟩ :=
      solveAux_success_list deps rank (rank m) hrec (deps m) R (S ++ [m])
        (fun d hd => hrank m d hd) hnd hsort hseen'
    refine ⟨f + 1, R1 ++ [⟨m, deps m⟩], S1, ?_⟩
    simp only [solveAux]
    rw [hok]

/-- A resolved list closed under recorded dependencies is closed under the
header graph when every entry records its header. -/
theorem closed_of_sorted {deps : String → List String} {R : List Mig}
    (hsort : DepsBefore R) (hent : ∀ e ∈ R, e.dependsOn = deps e.name) :
    ∀ y ∈ names R, ∀ d ∈ deps y, d ∈ names R := by
  intro y hy d hd
  rw [names, List.mem_map] at hy
  obtain ⟨e, he, rfl⟩ := hy
  exact depsBefore_closed hsort e he d (by rw [hent e he]; exact hd)

/-- Everything reachable from a member of a dependency-closed name list is
in the list. -/
theorem reaches_mem_of_closed {deps : String → List String} {R : List Mig}
    (hclosed : ∀ y ∈ names R, ∀ d ∈ deps y, d ∈ names R) :
    ∀ {u x : String}, Reaches deps u x → u ∈ names R → x ∈ names R := by
  intro u x hr
  induction hr with
  | refl m => exact fun h => h
  | step hd _ ih => exact fun h => ih (hclosed _ h _ hd)

/-- In a `DepsBefore` list, every recorded dependency of an entry occurs
among the names of the entries strictly before it. -/
theorem depsBefore_split {R : List Mig} (h : DepsBefore R) :
    ∀ R₁ e R₂, R = R₁ ++ e :: R₂ → ∀ d ∈ e.dependsOn, d ∈ names R₁ := by
  induction h with
  | nil =>
    intro R₁ e R₂ heq
    exfalso
    have := congrArg List.length heq
    simp at this
    omega
  | @snoc R e' hR hdeps ih =>
    intro R₁ e R₂ heq d hd
    rcases List.eq_nil_or_concat R₂ with h2 | ⟨R₂', e₂, h2⟩
    · subst h2
      have hlen : ([e'] : List Mig).length = ([e] : List Mig).length := rfl
      obtain ⟨hRR, he⟩ := List.append_inj' heq hlen
      subst hRR
      have he' : e' = e := by simpa using he
      subst he'
      exact hdeps d hd
    · subst h2
      rw [List.concat_eq_append] at heq
      have heq' : R ++ [e'] = (R₁ ++ e :: R₂') ++ [e₂] := by
        rw [heq]; simp
      have hlen : ([e'] : List Mig).length = ([e₂] : List Mig).length := rfl
      obtain ⟨hRR, _⟩ := List.append_inj' heq' hlen
      exact ih R₁ e R₂' hRR d hd

/-- In a duplicate-free `DepsBefore` list, the position of a recorded
dependency is strictly below the position of its entry. -/
theorem depsBefore_indexOf_lt {R : List Mig} (h : DepsBefore R)
    (hnd : (names R).Nodup) :
    ∀ e ∈ R, ∀ d ∈ e.dependsOn,
      (names R).indexOf d < (names R).indexOf e.name := by
  induction h with
  | nil => intro e he; simp at he
  | @snoc R e' hR hdeps ih =>
    intro e he d hd
    rw [names_append, names_singleton] at hnd ⊢
    rw [List.nodup_append] at hnd
    obtain ⟨hndR, _, hdisj⟩ := hnd
    have hnotin : e'.name ∉ names R := by
      intro hc
      exact hdisj hc (List.mem_singleton_self _)
    rw [List.mem_append, List.mem_singleton] at he
    rcases he with he | he
    · have hdR : d ∈ names R := depsBefore_closed hR e he d hd
      have heR : e.name ∈ names R := List.mem_map_of_mem Mig.name he
      rw [List.indexOf_append_of_mem hdR, List.indexOf_append_of_mem heR]
      exact ih hndR e he d hd
    · subst he
      have hdR : d ∈ names R := hdeps d hd
      rw [List.indexOf_append_of_mem hdR,
        List.indexOf_append_of_not_mem hnotin, List.indexOf_cons_self]
      have := List.indexOf_lt_length.2 hdR
      omega

/-- Along reachability inside a duplicate-free sorted resolved list the
position never increases. -/
theorem reaches_indexOf_le {deps : String → List String} {R : List Mig}
    (hsort : DepsBefore R) (hnd : (names R).Nodup)
    (hent : ∀ e ∈ R, e.dependsOn = deps e.name) :
    ∀ {u x : String}, Reaches deps u x → u ∈ names R →
      x ∈ names R ∧ (names R).indexOf x ≤ (names R).indexOf u := by
  intro u x hr
  induction hr with
  | refl m => exact fun h => ⟨h, le_rfl⟩
  | @step m d x hd _ ih =>
    intro h
    have h' : ∃ e, e ∈ R ∧ e.name = m := by
      simpa [names, List.mem_map] using h
    obtain ⟨e, he, rfl⟩ := h'
    have hde : d ∈ e.dependsOn := by rw [hent e he]; exact hd
    have hlt := depsBefore_indexOf_lt hsort hnd e he d hde
    have hdR : d ∈ names R := depsBefore_closed hsort e he d hde
    obtain ⟨hx, hle⟩ := ih hdR
    exact ⟨hx, le_trans hle (le_of_lt hlt)⟩

/-- The only errors `_solve_dependencies` raises are the recursion limit
(the fuel artefact standing for Python's `RecursionError`) and the
circular-dependency `ValueError` with its fixed message. -/
theorem solveAux_error_classify (deps : String → List String) :
    ∀ f k R₀ S₀ e, solveAux deps f k R₀ S₀ = .error e →
      e = .recursionLimit ∨ e = .circular circularMsg := by
  intro f
  induction f with
  | zero =>
    intro k R₀ S₀ e h
    simp [solveAux] at h
    exact Or.inl h.symm
  | succ f ih =>
    intro k R₀ S₀ e h
    cases k with
    | inl m =>
      rw [solveAux_eq_inl] at h
      cases hinner : solveAux deps f (.inr (deps m)) R₀ (S₀ ++ [m]) with
      | error e' =>
        rw [hinner] at h
        simp only [Except.error.injEq] at h
        subst h
        exact ih _ _ _ _ hinner
      | ok p =>
        obtain ⟨R₁, S₁⟩ := p
        rw [hinner] at h
        simp at h
    | inr ds =>
      cases ds with
      | nil => rw [solveAux_eq_nil] at h; simp at h
      | cons d ds =>
        rw [solveAux_eq_cons] at h
        by_cases hd1 : d ∈ names R₀
        · rw [if_pos hd1] at h
          exact ih _ _ _ _ h
        · rw [if_neg hd1] at h
          by_cases hd2 : d ∈ S₀
          · rw [if_pos hd2] at h
            simp only [Except.error.injEq] at h
            exact Or.inr h.symm
          · rw [if_neg hd2] at h
            cases hone : solveAux deps f (.inl d) R₀ S₀ with
            | error e' =>
              rw [hone] at h
              simp only [Except.error.injEq] at h
              subst h
              exact ih _ _ _ _ hone
            | ok p =>
              obtain ⟨R₁, S₁⟩ := p
              rw [hone] at h
              exact ih _ _ _ _ h

/-! ## Claim theorems -/

/-- Concrete migration names used by witnesses and counterexamples. -/
def mig1 : String := "0001_init.sql"

def mig2 : String := "0002_users.sql"

def mig3 : String := "0003_data.sql"

/-- A concrete acyclic header graph: `mig1` depends on `mig2`. -/
def depsW : String → List String := fun v => if v = mig1 then [mig2] else []

/-- A rank function witnessing that `depsW` is acyclic. -/
def rankW : String → Nat := fun v => if v = mig1 then 1 else 0

/-- Claim C1: for every acyclic dependency graph of migration headers
(acyclicity witnessed by a rank function strictly decreasing along declared
dependencies), resolving a starting migration name succeeds and produces an
ordered sequence that contains exactly the starting migration and every
migration it transitively depends on, each name appearing exactly once, and
every declared dependency of an entry appearing strictly before that entry
(a valid topological order). -/
theorem C1_resolution_topological (deps : String → List String)
    (rank : String → Nat) (hrank : ∀ v, ∀ d ∈ deps v, rank d < rank v)
    (m : String) :
    ∃ fuel R seen, solve_dependencies deps fuel m = .ok (R, seen) ∧
      (∀ x, x ∈ names R ↔ Reaches deps m x) ∧
      (names R).Nodup ∧
      (∀ e ∈ R, e.dependsOn = deps e.name) ∧
      (∀ R₁ e R₂, R = R₁ ++ e :: R₂ → ∀ d ∈ e.dependsOn, d ∈ names R₁) := by
  obtain ⟨f, R, S, hok⟩ :=
    solveAux_success_one deps rank hrank (rank m) m [] [] le_rfl (by simp)
      DepsBefore.nil (by simp) (by simp) (by simp)
  have inv := solveAux_ok deps f (.inl m) [] [] R S (by simp) DepsBefore.nil
    ⟨by simp, by simp⟩ hok
  have hent : ∀ e ∈ R, e.dependsOn = deps e.name := by
    intro e he
    rcases inv.entries e he with h | h
    · simp at h
    · exact h
  refine ⟨f, R, S, hok, ?_, inv.nodupR, hent, depsBefore_split inv.sortedR⟩
  intro x
  constructor
  · intro hx
    rcases inv.reach x hx with h | ⟨d, hd, hr⟩
    · simp at h
    · simp only [rootsOf, List.mem_singleton] at hd
      subst hd
      exact hr
  · intro hr
    exact reaches_mem_of_closed (closed_of_sorted inv.sortedR hent) hr
      (inv.rootsMem m (List.mem_singleton_self m))

/-- A concrete cyclic header graph: `mig1` and `mig2` depend on each
other. -/
def depsCyc : String → List String := fun v =>
  if v = mig1 then [mig2] else if v = mig2 then [mig1] else []

/-- A run configuration that needs no prompt: apply and register, not dry,
accept-all. -/
def cfgW : Config :=
  { apply_migrations := true, register := true, dry_run := false,
    accept_all := true, ignore_applied := false }

/-- Empty stores. -/
def stEmpty : Stores := { target := [], internal := [] }

/-- A file table with empty scripts. -/
def filesW : String → String := fun _ => ""

/-- An oracle on which every call succeeds. -/
def okW : String → Bool := fun _ => true

/-- Witness for C1 at the concrete acyclic graph `depsW`. -/
theorem C1_resolution_topological_witness :
    ∃ fuel R seen, solve_dependencies depsW fuel mig1 = .ok (R, seen) ∧
      (∀ x, x ∈ names R ↔ Reaches depsW mig1 x) ∧
      (names R).Nodup ∧
      (∀ e ∈ R, e.dependsOn = depsW e.name) ∧
      (∀ R₁ e R₂, R = R₁ ++ e :: R₂ → ∀ d ∈ e.dependsOn, d ∈ names R₁) :=
  C1_resolution_topological depsW rankW
    (by
      intro v d hd
      by_cases hv : v = mig1
      · subst hv
        simp [depsW] at hd
        subst hd
        decide
      · simp [depsW, hv] at hd)
    mig1

/-- Claim C6: when the header graph has a cycle reachable from the requested
migration, `process_migration` never produces a run (resolution raises
before any execution or registration can happen), and any error it raises
is either the recursion-limit artefact or the circular-dependency
`ValueError`. -/
theorem C6_cycle_no_plan (deps : String → List String) (fuel : Nat)
    (files : String → String) (execOk insertOk : String → Bool)
    (response : String) (cfg : Config) (st : Stores) (m c d : String)
    (hreach : Reaches deps m c) (hd : d ∈ deps c)
    (hcyc : Reaches deps d c) :
    (∀ out, process_migration deps fuel files execOk insertOk response cfg
      st m ≠ .ok out) ∧
    (∀ e, process_migration deps fuel files execOk insertOk response cfg
      st m = .error e → e = .recursionLimit ∨ e = .circular circularMsg) := by
  constructor
  · intro out hok
    unfold process_migration at hok
    cases hg : get_migrations_to_run deps fuel st cfg.ignore_applied m with
    | error e => rw [hg] at hok; simp at hok
    | ok ms =>
      unfold get_migrations_to_run at hg
      cases hs : solve_dependencies deps fuel m with
      | error e => rw [hs] at hg; simp at hg
      | ok p =>
        obtain ⟨R, S⟩ := p
        have inv := solveAux_ok deps fuel (.inl m) [] [] R S (by simp)
          DepsBefore.nil ⟨by simp, by simp⟩ hs
        have hent : ∀ e ∈ R, e.dependsOn = deps e.name := by
          intro e he
          rcases inv.entries e he with h | h
          · simp at h
          · exact h
        have hmR : m ∈ names R := inv.rootsMem m (List.mem_singleton_self m)
        have hcR : c ∈ names R :=
          (reaches_indexOf_le inv.sortedR inv.nodupR hent hreach hmR).1
        have h' : ∃ e, e ∈ R ∧ e.name = c := by
          simpa [names, List.mem_map] using hcR
        obtain ⟨e, he, rfl⟩ := h'
        have hde : d ∈ e.dependsOn := by rw [hent e he]; exact hd
        have hlt := depsBefore_indexOf_lt inv.sortedR inv.nodupR e he d hde
        have hdR : d ∈ names R := depsBefore_closed inv.sortedR e he d hde
        have hle :=
          (reaches_indexOf_le inv.sortedR inv.nodupR hent hcyc hdR).2
        omega
  · intro e he
    unfold process_migration at he
    cases hg : get_migrations_to_run deps fuel st cfg.ignore_applied m with
    | error e' =>
      rw [hg] at he
      simp only [Except.error.injEq] at he
      subst he
      unfold get_migrations_to_run at hg
      cases hs : solve_dependencies deps fuel m with
      | error e2 =>
        rw [hs] at hg
        simp only [Except.error.injEq] at hg
        subst hg
        exact solveAux_error_classify deps fuel _ _ _ _ hs
      | ok p => rw [hs] at hg; simp at hg
    | ok ms => rw [hg] at he; simp at he

/-- Witness for C6 at the concrete two-cycle `depsCyc`; the third conjunct
shows the concrete error raised there. -/
theorem C6_cycle_no_plan_witness :
    ((∀ out, process_migration depsCyc 10 filesW okW okW ("") cfgW stEmpty
      mig1 ≠ .ok out) ∧
    (∀ e, process_migration depsCyc 10 filesW okW okW ("") cfgW stEmpty
      mig1 = .error e →
      e = .recursionLimit ∨ e = .circular circularMsg)) ∧
    process_migration depsCyc 10 filesW okW okW ("") cfgW stEmpty mig1 =
      .error (.circular circularMsg) :=
  ⟨C6_cycle_no_plan depsCyc 10 filesW okW okW ("") cfgW stEmpty mig1 mig1 mig2
    (Reaches.refl mig1) (by decide)
    (Reaches.step (by decide) (Reaches.refl mig1)), rfl⟩

/-- Claim C7 (code bug): a two-cycle raises the circular-dependency
`ValueError`, but its message is the fixed literal
`Circular dependency detected "\x7bmigration, dependency\x7d"` — the second
string fragment of the `raise` lacks the `f` prefix, so neither migration
name of the cycle edge occurs in the message. -/
theorem C7_cycle_error_message_literal :
    solve_dependencies depsCyc 10 mig1 = .error (.circular circularMsg) ∧
    ¬ (mig1.toList <:+: circularMsg.toList) ∧
    ¬ (mig2.toList <:+: circularMsg.toList) := by
  refine ⟨rfl, ?_, ?_⟩ <;> decide

/-- A dry-run configuration. -/
def cfgDry : Config :=
  { apply_migrations := true, register := true, dry_run := true,
    accept_all := false, ignore_applied := false }

/-- A configuration that prompts (accept-all off, not dry). -/
def cfgDecl : Config :=
  { apply_migrations := true, register := true, dry_run := false,
    accept_all := false, ignore_applied := false }

/-- Claim C8: in dry-run mode, for every plan, the run loads and displays
the scripts and does nothing else: no execute call against the target store,
no insert into the internal store, both stores unchanged, no confirmation
prompt. -/
theorem C8_dry_run_no_effects (cfg : Config) (files : String → String)
    (execOk insertOk : String → Bool) (response : String) (st : Stores)
    (migrations : List Mig) (h : cfg.dry_run = true) :
    run_migrations cfg files execOk insertOk response st migrations =
      { target := st.target, internal := st.internal, execCalls := [],
        regCalls := [], promptShown := false,
        displayed := migrations.map
          (fun m => (m.name, get_sql_script files m.name)),
        status := .dryRun } := by
  simp [run_migrations, h]

/-- Witness for C8 on a non-empty plan. -/
theorem C8_dry_run_no_effects_witness :
    run_migrations cfgDry filesW okW okW ("") stEmpty [⟨mig1, []⟩] =
      { target := [], internal := [], execCalls := [], regCalls := [],
        promptShown := false, displayed := [(mig1, "")],
        status := .dryRun } := by
  rw [C8_dry_run_no_effects cfgDry filesW okW okW ("") stEmpty
    [⟨mig1, []⟩] rfl]
  rfl

theorem char_toNat_ofNat_valid {n : Nat} (h : n < 55296) :
    (Char.ofNat n).toNat = n := by
  rw [Char.ofNat, dif_pos (Or.inl h : n.isValidChar)]
  rfl

/-- The only characters Python's `str.lower()` (modelled with
`Char.toLower`) sends to `'y'` are `'y'` and `'Y'`. -/
theorem toLower_eq_y_iff (c : Char) :
    Char.toLower c = 'y' ↔ c = 'y' ∨ c = 'Y' := by
  constructor
  · intro h
    rw [Char.toLower] at h
    by_cases hc : c.toNat ≥ 65 ∧ c.toNat ≤ 90
    · rw [if_pos hc] at h
      have h1 : (Char.ofNat (c.toNat + 32)).toNat = Char.toNat 'y' := by
        rw [h]
      rw [char_toNat_ofNat_valid (by omega)] at h1
      have h2 : Char.toNat 'y' = 121 := rfl
      have h3 : c.toNat = 89 := by omega
      right
      have h4 : c = Char.ofNat 89 := by rw [← h3, Char.ofNat_toNat]
      rw [h4]
    · rw [if_neg hc] at h
      exact Or.inl h
  · intro h
    rcases h with h | h <;> subst h <;> decide

/-- Claim C9: with accept-all off and outside dry-run, the prompt consents
exactly when the stripped response is empty or begins with `'y'` or `'Y'`;
any other response makes `run_migrations` return after the prompt with no
execute call, no insert, and both stores unchanged. -/
theorem C9_prompt_gate (cfg : Config) (files : String → String)
    (execOk insertOk : String → Bool) (response : String) (st : Stores)
    (migrations : List Mig) (hdry : cfg.dry_run = false)
    (hacc : cfg.accept_all = false) :
    (prompt_consents response = true ↔
      (pyStrip response).toList = [] ∨
      ∃ c t, (pyStrip response).toList = c :: t ∧ (c = 'y' ∨ c = 'Y')) ∧
    (prompt_consents response = false →
      run_migrations cfg files execOk insertOk response st migrations =
        { target := st.target, internal := st.internal, execCalls := [],
          regCalls := [], promptShown := true, displayed := [],
          status := .aborted }) := by
  constructor
  · have hLow : (pyLower (pyStrip response)).toList =
        (pyStrip response).toList.map Char.toLower := rfl
    unfold prompt_consents
    rw [hLow]
    cases hl : (pyStrip response).toList with
    | nil => simp
    | cons c t =>
      simp only [List.map_cons]
      constructor
      · intro h
        right
        refine ⟨c, t, rfl, ?_⟩
        exact (toLower_eq_y_iff c).1 (by simpa using h)
      · intro h
        rcases h with h | ⟨c', t', heq, hy⟩
        · simp at h
        · injection heq with h1 _
          subst h1
          simpa using (toLower_eq_y_iff c).2 hy
  · intro hcons
    simp [run_migrations, hdry, hacc, hcons]

/-- In fake mode (`apply_migrations` off) the target loop makes no
`conn.execute` call. -/
theorem execLoop_no_apply_calls (execOk : String → Bool) :
    ∀ (loaded : List (String × String)) tentative calls applied t c a r,
      execLoop false execOk loaded tentative calls applied = (t, c, a, r) →
      c = calls := by
  intro loaded
  induction loaded with
  | nil =>
    intro tentative calls applied t c a r h
    simp only [execLoop, Prod.mk.injEq] at h
    exact h.2.1.symm
  | cons p rest ih =>
    obtain ⟨name, script⟩ := p
    intro tentative calls applied t c a r h
    simp only [execLoop, Bool.false_eq_true, if_false] at h
    exact ih _ _ _ _ _ _ _ h

/-- In fake mode the target loop never raises: its result is always
`none`. -/
theorem execLoop_none_of_no_apply (execOk : String → Bool) :
    ∀ (loaded : List (String × String)) tentative calls applied t c a r,
      execLoop false execOk loaded tentative calls applied = (t, c, a, r) →
      r = none := by
  intro loaded
  induction loaded with
  | nil =>
    intro tentative calls applied t c a r h
    simp only [execLoop, Prod.mk.injEq] at h
    exact h.2.2.2.symm
  | cons p rest ih =>
    obtain ⟨name, script⟩ := p
    intro tentative calls applied t c a r h
    simp only [execLoop, Bool.false_eq_true, if_false] at h
    exact ih _ _ _ _ _ _ _ h

/-- When the target loop raises, the loaded plan splits around the failing
entry: every earlier script succeeded and was executed in order, the
failing entry's name is the one raised, its script failed, and the
`conn.execute` calls are exactly the earlier scripts followed by the
failing one — nothing after the failure is ever executed. -/
theorem execLoop_some_split (execOk : String → Bool) :
    ∀ (loaded : List (String × String)) tentative calls applied t c a n,
      execLoop true execOk loaded tentative calls applied =
        (t, c, a, some n) →
      ∃ preL p postL, loaded = preL ++ p :: postL ∧ p.1 = n ∧
        execOk p.2 = false ∧ (∀ q ∈ preL, execOk q.2 = true) ∧
        c = calls ++ preL.map Prod.snd ++ [p.2] := by
  intro loaded
  induction loaded with
  | nil =>
    intro tentative calls applied t c a n h
    simp only [execLoop, Prod.mk.injEq] at h
    exact absurd h.2.2.2 (by simp)
  | cons q rest ih =>
    obtain ⟨name, script⟩ := q
    intro tentative calls applied t c a n h
    simp only [execLoop, if_true] at h
    by_cases hok : execOk script = true
    · rw [if_pos hok] at h
      obtain ⟨preL, p, postL, hsp, hn, hf, hpre, hc⟩ :=
        ih _ _ _ _ _ _ _ h
      refine ⟨(name, script) :: preL, p, postL, by rw [hsp]; rfl, hn, hf,
        ?_, ?_⟩
      · intro q2 hq2
        rcases List.mem_cons.mp hq2 with hq2 | hq2
        · subst hq2
          exact hok
        · exact hpre q2 hq2
      · rw [hc]
        simp
    · rw [if_neg hok] at h
      simp only [Prod.mk.injEq] at h
      obtain ⟨_, hc, _, hn⟩ := h
      refine ⟨[], (name, script), rest, rfl, ?_, ?_, by simp, ?_⟩
      · simpa using hn
      · simpa using hok
      · rw [← hc]
        simp

/-- A list whose image under `f` splits around an element splits the same
way itself. -/
theorem map_split {α β : Type} (f : α → β) :
    ∀ (l : List α) (preL : List β) (p : β) (postL : List β),
      l.map f = preL ++ p :: postL →
      ∃ pre e post, l = pre ++ e :: post ∧ pre.map f = preL ∧ f e = p ∧
        post.map f = postL := by
  intro l
  induction l with
  | nil =>
    intro preL p postL h
    exfalso
    have := congrArg List.length h
    simp at this
    omega
  | cons a l ih =>
    intro preL p postL h
    cases preL with
    | nil =>
      simp only [List.map_cons, List.nil_append] at h
      injection h with h1 h2
      exact ⟨[], a, l, rfl, rfl, h1, h2⟩
    | cons b preL =>
      simp only [List.map_cons, List.cons_append] at h
      injection h with h1 h2
      obtain ⟨pre, e, post, hl, hpre, hp, hpost⟩ := ih preL p postL h2
      exact ⟨a :: pre, e, post, by rw [hl]; rfl,
        by rw [List.map_cons, hpre, h1], hp, hpost⟩

/-- Claim C2: in a non-dry-run, non-aborted run, a script failure raises
out of the target transaction: the target store rolls back to its prior
state, registration is never reached, the internal store is unchanged, and
the plan splits around the failing migration — every script before it
succeeded, its own script failed, and the `conn.execute` calls are exactly
the earlier scripts followed by the failing one, so none of the remaining
scripts is ever executed. -/
theorem C2_exec_failure_rolls_back (cfg : Config) (files : String → String)
    (execOk insertOk : String → Bool) (response : String) (st : Stores)
    (migrations : List Mig) (n : String)
    (h : (run_migrations cfg files execOk insertOk response st
      migrations).status = .execFailed n) :
    (run_migrations cfg files execOk insertOk response st migrations).target
      = st.target ∧
    (run_migrations cfg files execOk insertOk response st
      migrations).internal = st.internal ∧
    (run_migrations cfg files execOk insertOk response st
      migrations).regCalls = [] ∧
    ∃ pre e post,
      migrations = pre ++ e :: post ∧
      e.name = n ∧
      execOk (get_sql_script files e.name) = false ∧
      (∀ m ∈ pre, execOk (get_sql_script files m.name) = true) ∧
      (run_migrations cfg files execOk insertOk response st
        migrations).execCalls =
        (pre ++ [e]).map (fun m => get_sql_script files m.name) := by
  unfold run_migrations at h ⊢
  by_cases hdry : cfg.dry_run = true
  · rw [if_pos hdry] at h
    simp at h
  · rw [if_neg hdry] at h ⊢
    by_cases hab : (!cfg.accept_all && !prompt_consents response) = true
    · rw [if_pos hab] at h
      simp at h
    · rw [if_neg hab] at h ⊢
      rcases hexec : execLoop cfg.apply_migrations execOk
        (migrations.map (fun m => (m.name, get_sql_script files m.name)))
        [] [] [] with ⟨t, c, a, r⟩
      rw [hexec] at h ⊢
      cases r with
      | none =>
        exfalso
        dsimp only at h
        by_cases hreg : cfg.register = true
        · rw [if_pos hreg] at h
          rcases hr : register_migrations insertOk st.internal a
            with ⟨ni, rc, ro⟩
          rw [hr] at h
          cases ro with
          | none => simp at h
          | some n2 => simp at h
        · rw [if_neg hreg] at h
          simp at h
      | some n2 =>
        dsimp only at h ⊢
        have hn2 : n2 = n := by simpa using h
        subst hn2
        refine ⟨rfl, rfl, rfl, ?_⟩
        show ∃ pre e post,
          migrations = pre ++ e :: post ∧
          e.name = n2 ∧
          execOk (get_sql_script files e.name) = false ∧
          (∀ m ∈ pre, execOk (get_sql_script files m.name) = true) ∧
          c = (pre ++ [e]).map (fun m => get_sql_script files m.name)
        cases hap : cfg.apply_migrations with
        | false =>
          rw [hap] at hexec
          have := execLoop_none_of_no_apply execOk _ _ _ _ _ _ _ _ hexec
          simp at this
        | true =>
          rw [hap] at hexec
          obtain ⟨preL, p, postL, hsp, hpn, hpf, hpre, hc⟩ :=
            execLoop_some_split execOk _ _ _ _ _ _ _ _ hexec
          obtain ⟨pre, e, post, hm, hpreL, hpe, _⟩ :=
            map_split (fun m => (m.name, get_sql_script files m.name))
              migrations preL p postL hsp
          refine ⟨pre, e, post, hm, ?_, ?_, ?_, ?_⟩
          · rw [← hpn, ← hpe]
          · rw [← hpe] at hpf
            exact hpf
          · intro m hmem
            have : (m.name, get_sql_script files m.name) ∈ preL := by
              rw [← hpreL]
              exact List.mem_map_of_mem _ hmem
            exact hpre _ this
          · rw [hc, ← hpreL, ← hpe]
            simp

/-- Scripts are the migration names themselves (names contain no newline,
so loading is the identity on them). -/
def files3 : String → String := fun n => n

/-- An executor that fails exactly on the second script. -/
def execOkFail2 : String → Bool := fun s => !(s == mig2)

/-- A three-migration plan with no dependencies. -/
def migs3 : List Mig := [⟨mig1, []⟩, ⟨mig2, []⟩, ⟨mig3, []⟩]

/-- Witness for C2: a plan of three scripts whose second fails leaves both
stores unchanged, registers nothing, and executes exactly the first script
and the failing second one — the third is never executed. -/
theorem C2_exec_failure_rolls_back_witness :
    (run_migrations cfgW files3 execOkFail2 okW ("") stEmpty migs3).target
      = stEmpty.target ∧
    (run_migrations cfgW files3 execOkFail2 okW ("") stEmpty migs3).internal
      = stEmpty.internal ∧
    (run_migrations cfgW files3 execOkFail2 okW ("") stEmpty migs3).regCalls
      = [] ∧
    ∃ pre e post,
      migs3 = pre ++ e :: post ∧
      e.name = mig2 ∧
      execOkFail2 (get_sql_script files3 e.name) = false ∧
      (∀ m ∈ pre, execOkFail2 (get_sql_script files3 m.name) = true) ∧
      (run_migrations cfgW files3 execOkFail2 okW ("") stEmpty
        migs3).execCalls =
        (pre ++ [e]).map (fun m => get_sql_script files3 m.name) :=
  C2_exec_failure_rolls_back cfgW files3 execOkFail2 okW ("") stEmpty migs3
    mig2 rfl

/-- Claim C4 as amended: registration runs inside the target-store
transaction, so a registration failure rolls back the target transaction
as well — after it, both the target store and the internal store are
unchanged. -/
theorem C4_register_failure_rolls_back_target (cfg : Config)
    (files : String → String) (execOk insertOk : String → Bool)
    (response : String) (st : Stores) (migrations : List Mig) (n : String)
    (h : (run_migrations cfg files execOk insertOk response st
      migrations).status = .registerFailed n) :
    (run_migrations cfg files execOk insertOk response st migrations).target
      = st.target ∧
    (run_migrations cfg files execOk insertOk response st
      migrations).internal = st.internal := by
  unfold run_migrations at h ⊢
  by_cases hdry : cfg.dry_run = true
  · rw [if_pos hdry] at h
    simp at h
  · rw [if_neg hdry] at h ⊢
    by_cases hab : (!cfg.accept_all && !prompt_consents response) = true
    · rw [if_pos hab] at h
      simp at h
    · rw [if_neg hab] at h ⊢
      rcases hexec : execLoop cfg.apply_migrations execOk
        (migrations.map (fun m => (m.name, get_sql_script files m.name)))
        [] [] [] with ⟨t, c, a, r⟩
      rw [hexec] at h ⊢
      cases r with
      | none =>
        dsimp only at h ⊢
        by_cases hreg : cfg.register = true
        · rw [if_pos hreg] at h ⊢
          rcases hr : register_migrations insertOk st.internal a
            with ⟨ni, rc, ro⟩
          rw [hr] at h
          cases ro with
          | none => simp at h
          | some n2 => exact ⟨rfl, rfl⟩
        · rw [if_neg hreg] at h
          simp at h
      | some n2 =>
        dsimp only at h
        simp at h

/-- An internal store on which every insert raises. -/
def insertFail : String → Bool := fun _ => false

/-- Counterexample to C4 as stated: a run whose single script was executed
(`execCalls` is non-empty) and whose registration then failed leaves the
target store unchanged — the migration does not remain applied on the
target store, because the registration failure also rolls back the
enclosing target transaction. -/
theorem C4_register_failure_counterexample :
    (run_migrations cfgW filesW okW insertFail ("") stEmpty
      [⟨mig1, []⟩]).status = .registerFailed mig1 ∧
    (run_migrations cfgW filesW okW insertFail ("") stEmpty
      [⟨mig1, []⟩]).execCalls = [""] ∧
    (run_migrations cfgW filesW okW insertFail ("") stEmpty
      [⟨mig1, []⟩]).target = [] ∧
    (run_migrations cfgW filesW okW insertFail ("") stEmpty
      [⟨mig1, []⟩]).internal = [] :=
  ⟨rfl, rfl, rfl, rfl⟩

/-- Witness for the amended C4 at the counterexample's input. -/
theorem C4_register_failure_rolls_back_target_witness :
    (run_migrations cfgW filesW okW insertFail ("") stEmpty
      [⟨mig1, []⟩]).target = stEmpty.target ∧
    (run_migrations cfgW filesW okW insertFail ("") stEmpty
      [⟨mig1, []⟩]).internal = stEmpty.internal :=
  C4_register_failure_rolls_back_target cfgW filesW okW insertFail ("")
    stEmpty [⟨mig1, []⟩] mig1 rfl

/-- Witness for C9 with the declined response `"  NO "`. -/
theorem C9_prompt_gate_witness :
    ((prompt_consents ("  NO ") = true ↔
      (pyStrip ("  NO ")).toList = [] ∨
      ∃ c t, (pyStrip ("  NO ")).toList = c :: t ∧ (c = 'y' ∨ c = 'Y')) ∧
    (prompt_consents ("  NO ") = false →
      run_migrations cfgDecl filesW okW okW ("  NO ") stEmpty [⟨mig1, []⟩] =
        { target := [], internal := [], execCalls := [], regCalls := [],
          promptShown := true, displayed := [],
          status := .aborted })) ∧
    prompt_consents ("  NO ") = false :=
  ⟨C9_prompt_gate cfgDecl filesW okW okW ("  NO ") stEmpty [⟨mig1, []⟩]
    rfl rfl, rfl⟩

theorem regLoop_all_ok (insertOk : String → Bool) :
    ∀ (ns tentative calls : List String), (∀ n ∈ ns, insertOk n = true) →
      regLoop insertOk ns tentative calls =
        (tentative ++ ns, calls ++ ns, none) := by
  intro ns
  induction ns with
  | nil =>
    intro t c _
    simp [regLoop]
  | cons n ns ih =>
    intro t c h
    simp only [regLoop]
    rw [if_pos (h n (List.mem_cons_self n ns))]
    rw [ih (t ++ [n]) (c ++ [n]) (fun x hx => h x (List.mem_cons_of_mem n hx))]
    simp

/-- Counterexample to C5 as stated: registering a name that is already
recorded inserts another row — `INSERT INTO migration (name) VALUES (...)`
has no uniqueness to collide with (`init_meta` puts no unique constraint on
the `name` column), so the internal store ends up holding the name twice. -/
theorem C5_register_duplicates_counterexample :
    register_migrations okW [mig1] [mig1] = ([mig1, mig1], [mig1], none) ∧
    ¬ ([mig1, mig1].Nodup) ∧
    ("name", false) ∈ migration_table_columns := by
  refine ⟨rfl, by decide, by decide⟩

/-- Claim C5 as amended: `register_migrations` unconditionally appends one
row per name; when every insert succeeds the internal store rows become the
old rows followed by the registered names, so re-registering a present name
duplicates it rather than being idempotent. -/
theorem C5_register_appends (insertOk : String → Bool)
    (rows ns : List String) (h : ∀ n ∈ ns, insertOk n = true) :
    register_migrations insertOk rows ns = (rows ++ ns, ns, none) := by
  unfold register_migrations
  rw [regLoop_all_ok insertOk ns rows [] h]
  simp

/-- Witness for the amended C5. -/
theorem C5_register_appends_witness :
    register_migrations okW [mig1] [mig2, mig1] =
      ([mig1, mig2, mig1], [mig2, mig1], none) := by
  rw [C5_register_appends okW [mig1] [mig2, mig1] (by decide)]
  rfl

/-- Python `readlines` of newline-free text: the single accumulated line
(or nothing when both the text and the accumulator are empty). -/
theorem readlinesAux_no_newline :
    ∀ (l acc : List Char), '\n' ∉ l →
      readlinesAux l acc =
        if l.isEmpty && acc.isEmpty then [] else [acc.reverse ++ l] := by
  intro l
  induction l with
  | nil =>
    intro acc _
    simp [readlinesAux]
  | cons c cs ih =>
    intro acc h
    have hc : ¬ (c = '\n') := fun hc => h (hc ▸ List.mem_cons_self c cs)
    have hcs : '\n' ∉ cs := fun hx => h (List.mem_cons_of_mem c hx)
    simp only [readlinesAux, if_neg hc]
    rw [ih (c :: acc) hcs]
    simp

/-- Counterexample to C10 as stated: a two-line file is not handed verbatim
to the executor — `" ".join(f.readlines())` inserts a space after the first
line's newline. -/
theorem C10_join_readlines_counterexample :
    get_sql_script (fun _ => "a\nb") mig1 = "a\n b" ∧
    get_sql_script (fun _ => "a\nb") mig1 ≠ (fun _ : String => "a\nb") mig1
    := by
  refine ⟨rfl, by decide⟩

/-- Claim C10 as amended: the script handed to the executor is the file's
lines, each keeping its newline, joined by a single space; it equals the
raw text exactly for files whose content contains no newline. -/
theorem C10_newline_free_verbatim (files : String → String) (m : String)
    (h : '\n' ∉ (files m).toList) : get_sql_script files m = files m := by
  unfold get_sql_script pyReadlines
  rw [readlinesAux_no_newline (files m).toList [] h]
  cases hl : (files m).toList with
  | nil =>
    have hfm : files m = "" := by
      have : (⟨(files m).toList⟩ : String) = files m := rfl
      rw [hl] at this
      exact this.symm
    rw [hfm]
    rfl
  | cons c cs =>
    simp only [List.isEmpty_cons, Bool.false_and, Bool.false_eq_true,
      if_false, List.reverse_nil, List.nil_append, List.map_cons,
      List.map_nil]
    rw [← hl]
    rfl

/-- Witness for the amended C10 on a newline-free script. -/
theorem C10_newline_free_verbatim_witness :
    get_sql_script (fun _ => "select 1;") mig1 = (fun _ : String =>
      "select 1;") mig1 :=
  C10_newline_free_verbatim (fun _ => "select 1;") mig1 (by decide)

/-- Every available migration whose planning succeeded contributes all of
its plan entries to the gathered candidate list. -/
theorem gather_candidates_sub (deps : String → List String) (fuel : Nat)
    (st : Stores) (ignore : Bool) :
    ∀ (available : List String) (a : String) (cands : List Mig),
      a ∈ available →
      gather_candidates deps fuel st ignore available = .ok cands →
      ∃ ms, get_migrations_to_run deps fuel st ignore a = .ok ms ∧
        ∀ e ∈ ms, e ∈ cands := by
  intro available
  induction available with
  | nil =>
    intro a cands ha
    simp at ha
  | cons b rest ih =>
    intro a cands ha hg
    simp only [gather_candidates] at hg
    cases hb : get_migrations_to_run deps fuel st ignore b with
    | error e => rw [hb] at hg; simp at hg
    | ok ms =>
      rw [hb] at hg
      cases hrest : gather_candidates deps fuel st ignore rest with
      | error e => rw [hrest] at hg; simp at hg
      | ok acc =>
        rw [hrest] at hg
        simp only [Except.ok.injEq] at hg
        subst hg
        rcases List.mem_cons.mp ha with h | h
        · subst h
          exact ⟨ms, hb, fun e he => List.mem_append_left _ he⟩
        · obtain ⟨ms2, hok2, hsub⟩ := ih a acc h hrest
          exact ⟨ms2, hok2, fun e he =>
            List.mem_append_right _ (hsub e he)⟩

/-- A successfully planned migration that is not recorded as applied occurs
in its own plan. -/
theorem self_mem_migrations_to_run (deps : String → List String)
    (fuel : Nat) (st : Stores) (ignore : Bool) (a : String) (ms : List Mig)
    (hnot : a ∉ st.internal)
    (h : get_migrations_to_run deps fuel st ignore a = .ok ms) :
    ∃ e ∈ ms, e.name = a := by
  unfold get_migrations_to_run at h
  cases hs : solve_dependencies deps fuel a with
  | error e => rw [hs] at h; simp at h
  | ok p =>
    obtain ⟨R, S⟩ := p
    rw [hs] at h
    simp only [Except.ok.injEq] at h
    subst h
    have inv := solveAux_ok deps fuel (.inl a) [] [] R S (by simp)
      DepsBefore.nil ⟨by simp, by simp⟩ hs
    have haR : a ∈ names R := inv.rootsMem a (List.mem_singleton_self a)
    obtain ⟨e, he, rfl⟩ : ∃ e, e ∈ R ∧ e.name = a := by
      simpa [names, List.mem_map] using haR
    refine ⟨e, ?_, rfl⟩
    rw [List.mem_filter]
    refine ⟨he, ?_⟩
    rw [decide_eq_true_eq]
    cases ignore with
    | true => simp
    | false =>
      simp only [Bool.false_eq_true, if_false]
      exact hnot

/-- Claim C3: whenever the gathered candidate list of
`process_all_migrations` is non-empty — which happens as soon as one
available migration is not yet applied — the call raises `TypeError` from
`dict.fromkeys` over the unhashable candidate dicts, before any run; it
reaches `run_migrations` only with the empty plan. -/
theorem C3_process_all_typeerror (deps : String → List String) (fuel : Nat)
    (files : String → String) (execOk insertOk : String → Bool)
    (response : String) (cfg : Config) (st : Stores)
    (available : List String) (cands : List Mig)
    (hg : gather_candidates deps fuel st cfg.ignore_applied available =
      .ok cands) :
    (cands ≠ [] → process_all_migrations deps fuel files execOk insertOk
      response cfg st available = .error .typeError) ∧
    (cands = [] → process_all_migrations deps fuel files execOk insertOk
      response cfg st available =
        .ok (run_migrations cfg files execOk insertOk response st [])) ∧
    (∀ a ∈ available, a ∉ st.internal → cands ≠ []) := by
  refine ⟨?_, ?_, ?_⟩
  · intro hne
    unfold process_all_migrations
    rw [hg]
    cases cands with
    | nil => exact absurd rfl hne
    | cons e cs => rfl
  · intro he
    subst he
    unfold process_all_migrations
    rw [hg]
    rfl
  · intro a ha hnot hnil
    subst hnil
    obtain ⟨ms, hok, hsub⟩ :=
      gather_candidates_sub deps fuel st cfg.ignore_applied available a []
        ha hg
    obtain ⟨e, he, _⟩ := self_mem_migrations_to_run deps fuel st
      cfg.ignore_applied a ms hnot hok
    exact absurd (hsub e he) (List.not_mem_nil e)

/-- Witness for C3: one available unapplied migration with no dependencies
makes `process_all_migrations` raise `TypeError`. -/
theorem C3_process_all_typeerror_witness :
    (([⟨mig1, []⟩] : List Mig) ≠ [] →
      process_all_migrations (fun _ => []) 2 filesW okW okW ("") cfgW stEmpty
        [mig1] = .error .typeError) ∧
    (([⟨mig1, []⟩] : List Mig) = [] →
      process_all_migrations (fun _ => []) 2 filesW okW okW ("") cfgW stEmpty
        [mig1] =
        .ok (run_migrations cfgW filesW okW okW ("") stEmpty [])) ∧
    (∀ a ∈ [mig1], a ∉ stEmpty.internal → ([⟨mig1, []⟩] : List Mig) ≠ [])
    :=
  C3_process_all_typeerror (fun _ => []) 2 filesW okW okW ("") cfgW stEmpty
    [mig1] [⟨mig1, []⟩] rfl

end Monarch
